/-
Verification of the ajustador repository: shallow embedding of the
fitness/selection library (fitnesses.py), the feature extraction
library (features.py), the morphology rewriter (basic_simulation.py)
and the file-versioning helpers (process_common.py, process_morph.py),
together with theorems settling the specification claims.

Numeric values are modelled as rationals; the floating NaN sentinel is
modelled as the `none` case of `Option`.
-/
import Mathlib

/-! ## fitnesses.py : simple_combined_fitness (claim C1) -/

/-- np.nansum over a vector with NaN (`none`) entries: NaN counts as 0. -/
def nansum (l : List (Option ℚ)) : ℚ :=
  (l.map (fun v => v.getD 0)).sum

/-- Elementwise square; NaN squared stays NaN. -/
def sqOpt (v : Option ℚ) : Option ℚ :=
  v.map (fun x => x * x)

/-- The `arr` local of `simple_combined_fitness`:
`np.fromiter((f(sim, measurement)**2 for f in [...]), dtype=float)` —
the squares of the eleven per-axis fitness values (given here as the
`axes` argument, since each axis function reads the full trace data). -/
def simple_combined_fitness_arr (axes : List (Option ℚ)) : List (Option ℚ) :=
  axes.map sqOpt

/-- The radicand of the non-`full` return of `simple_combined_fitness`:
`np.nansum(arr**2) / arr.size` (note `arr` already holds squares, so
the summand is the fourth power of each axis value). -/
def simple_combined_fitness_radicand (axes : List (Option ℚ)) : ℚ :=
  nansum ((simple_combined_fitness_arr axes).map sqOpt)
    / ((simple_combined_fitness_arr axes).length : ℚ)

/-- `simple_combined_fitness(sim, measurement, full=False)` =
`(np.nansum(arr**2) / arr.size)**0.5`, over the eleven per-axis values. -/
noncomputable def simple_combined_fitness (axes : List (Option ℚ)) : ℝ :=
  Real.sqrt ((simple_combined_fitness_radicand axes : ℚ) : ℝ)

/-- The claim wording for C1 (mean of the *squares* of the eleven axis
values, square-rooted), to be compared against the source function. -/
def simple_combined_fitness_claim_radicand (axes : List (Option ℚ)) : ℚ :=
  nansum (axes.map sqOpt) / (axes.length : ℚ)

/-- The value the C1 claim sentence describes. -/
noncomputable def simple_combined_fitness_claimed (axes : List (Option ℚ)) : ℝ :=
  Real.sqrt ((simple_combined_fitness_claim_radicand axes : ℚ) : ℝ)

/-- Concrete eleven-axis input separating the code from the C1 claim. -/
def axesC1 : List (Option ℚ) :=
  some 2 :: List.replicate 10 (some 0)

/-! ## fitnesses.py : find_multi_best (claim C2) -/

/-- `np.isnan(score).any()` is false iff every component is available;
in that case return the plain vector. -/
def allSome : List (Option ℚ) → Option (List ℚ)
  | [] => some []
  | none :: _ => none
  | some x :: rest => (allSome rest).map (fun l => x :: l)

/-- `(a < b).all()` for equal-length score vectors. -/
def domLt (a b : List ℚ) : Bool :=
  (a.zip b).all (fun p => decide (p.1 < p.2))

/-- `(v ** 2).sum()` — total squared score of one vector. -/
def sqTotal (v : List ℚ) : ℚ :=
  (v.map (fun x => x * x)).sum

/-- `((a - b) ** 2).sum()` — squared distance of two score vectors. -/
def distSq (a b : List ℚ) : ℚ :=
  ((a.zip b).map (fun p => (p.1 - p.2) * (p.1 - p.2))).sum

/-- One iteration of the main loop of `find_multi_best`.  A candidate
with a NaN axis is skipped.  Otherwise previously kept candidates that
the new score strictly dominates on every axis are removed
(`best[-dominates]`, i.e. `best[~dominates]` on this numpy era) and the
candidate is appended.  The early loop `for i, key in enumerate(best):
if (scores[i] < score).all(): break` only breaks out of itself and
changes no state, so it has no counterpart here. -/
def fmb_step {α : Type} (fitness : α → List (Option ℚ))
    (acc : List (α × List ℚ)) (sim : α) : List (α × List ℚ) :=
  match allSome (fitness sim) with
  | none => acc
  | some score =>
      if acc.isEmpty then [(sim, score)]
      else acc.filter (fun kept => ¬ domLt score kept.2) ++ [(sim, score)]

/-- The `worse` marking pass of the similarity post-filter:
`worse[i] = ((scores[i] - scores[:i]) ** 2).sum(axis=1) < total[i] * similarity).any()`,
with `prev` the scores of all earlier (sorted) candidates. -/
def simMark {α : Type} (similarity : ℚ) :
    List (List ℚ) → List (α × List ℚ) → List (α × List ℚ)
  | _, [] => []
  | prev, kv :: rest =>
      (if prev.any (fun p => decide (distSq kv.2 p < sqTotal kv.2 * similarity))
       then [] else [kv])
        ++ simMark similarity (prev ++ [kv.2]) rest

/-- The `if similarity:` post-filter: sort kept candidates by total
squared score ascending (`total.argsort()`, modelled as a stable sort;
the properties proved do not depend on tie order) and drop the
candidates marked worse. -/
def sim_filter {α : Type} (similarity : ℚ) (best : List (α × List ℚ)) :
    List (α × List ℚ) :=
  simMark similarity []
    (List.insertionSort (fun a b => sqTotal a.2 ≤ sqTotal b.2) best)

/-- `find_multi_best(group, measurement, fitness, similarity)` with
`full=False`: Pareto accumulation then near-duplicate pruning. -/
def find_multi_best {α : Type} (group : List α)
    (fitness : α → List (Option ℚ)) (similarity : ℚ) : List α :=
  let best := group.foldl (fmb_step fitness) []
  if similarity = 0 then best.map (fun kv => kv.1)
  else (sim_filter similarity best).map (fun kv => kv.1)

/-! ## fitnesses.py : find_best / fit_sort (claims C7, C9) -/

/-- The scoring transform of `fit_sort`/`find_best`:
`w = [...]; w[np.isnan(w)] = np.inf` — NaN becomes +infinity (`⊤`). -/
def nanToInf (v : Option ℚ) : WithTop ℚ :=
  match v with
  | none => ⊤
  | some x => (x : WithTop ℚ)

/-- `np.argmin`: index of the first minimal entry. -/
def argminIdx : List (WithTop ℚ) → ℕ
  | [] => 0
  | x :: xs => if xs.all (fun y => decide (x ≤ y)) then 0 else argminIdx xs + 1

/-- `find_best(group, measurement, fitness)` = `group[w.argmin()]`
(`none` for the empty group, where `np.argmin` raises). -/
def find_best {α : Type} (group : List α) (fitness : α → Option ℚ) : Option α :=
  group.get? (argminIdx (group.map (fun s => nanToInf (fitness s))))

/-- `fit_sort(group, measurement, fitness)` =
`np.array(group)[w.argsort()]`: candidates sorted ascending by their
NaN-to-infinity score (`argsort` modelled as a stable sort; the claim
properties do not depend on tie order). -/
def fit_sort {α : Type} (group : List α) (fitness : α → Option ℚ) : List α :=
  List.insertionSort
    (fun a b => nanToInf (fitness a) ≤ nanToInf (fitness b)) group

/-- Concrete two-candidate group for claim C7: candidate 0 has a NaN
score, candidate 1 a finite one. -/
def groupC7 : List ℕ := [0, 1]

/-- Fitness assignment for claim C7. -/
def fitnessC7 : ℕ → Option ℚ := fun n => if n = 0 then none else some 1

/-- Concrete two-candidate group for claim C9. -/
def groupC9 : List ℕ := [5, 7]

/-- All-NaN fitness assignment for claim C9. -/
def fitnessC9 : ℕ → Option ℚ := fun _ => none

/-! ## features.py : waves, falling-curve fit call (claim C3) and
rectification (claim C4) -/

/-- A wave is a record array of (time, amplitude) samples, as produced
by `np.rec`: slicing the wave slices both columns in step. -/
abbrev Wave := List (ℚ × ℚ)

/-- The `.x` column (times). -/
def Wave.xs (w : Wave) : List ℚ := w.map Prod.fst

/-- The `.y` column (amplitudes). -/
def Wave.ys (w : Wave) : List ℚ := w.map Prod.snd

/-- `wave.size`. -/
def Wave.size (w : Wave) : ℕ := w.length

/-- `np.min` on a list (the source only evaluates it on nonempty
input; 0 is a dummy for the empty case). -/
def listMin : List ℚ → ℚ
  | [] => 0
  | x :: xs => xs.foldl min x

/-- `np.max` on a list (dummy 0 on empty input, never reached). -/
def listMax : List ℚ → ℚ
  | [] => 0
  | x :: xs => xs.foldl max x

/-- `np.ptp` = max minus min. -/
def ptp (l : List ℚ) : ℚ := listMax l - listMin l

/-- `np.argmin`: index of the first minimal entry of a rational list. -/
def listArgmin : List ℚ → ℕ
  | [] => 0
  | x :: xs => if xs.all (fun y => decide (x ≤ y)) then 0 else listArgmin xs + 1

/-- `np.mean`: sum divided by length. -/
def listMean (l : List ℚ) : ℚ := l.sum / (l.length : ℚ)

/-- Python slice `l[a : b]` for nonnegative bounds (out-of-range bounds
clip to the list, as in Python). -/
def pySlice {α : Type} (l : List α) (a b : ℕ) : List α :=
  (l.take b).drop a

/-- The arguments of the `optimize.curve_fit` invocation made by
`_fit_falling_curve`. -/
structure CurveFitCall where
  xdata : List ℚ
  ydata : List ℚ
  p0 : ℚ × ℚ
deriving DecidableEq

/-- The local `init = (ccut.y.min() - baseline.x, ccut.x.ptp())`
computed by `_fit_falling_curve` (and then never passed on). -/
def falling_init (ccut : Wave) (baseline : ℚ) : ℚ × ℚ :=
  (listMin ccut.ys - baseline, ptp ccut.xs)

/-- The optimizer invocation of `_fit_falling_curve(ccut, baseline,
steady)`: `none` when `ccut.size < 5` (no fit is attempted), otherwise
`optimize.curve_fit(func, ccut.x, ccut.y - baseline.x, (-1, 1))` —
the initial-guess argument is the literal pair `(-1, 1)`. -/
def fit_falling_curve_call (ccut : Wave) (baseline : ℚ) : Option CurveFitCall :=
  if ccut.size < 5 then none
  else some ⟨ccut.xs, ccut.ys.map (fun y => y - baseline), (-1, 1)⟩

/-- Concrete 5-sample falling curve for claim C3. -/
def waveC3 : Wave := [(0, 0), (1, 0), (2, 0), (3, 0), (4, 0)]

/-- `Rectification.window_len = 11`. -/
def window_len : ℕ := 11

/-- `end = max(pos + window_len // 2, ccut.size - 1)` where
`pos = ccut.y.argmin()`. -/
def rect_end (ccut : Wave) : ℕ :=
  max (listArgmin ccut.ys + window_len / 2) (ccut.size - 1)

/-- The averaged window `ccut[end - window_len : end + window_len + 1].y`.
(Only evaluated by `rectification` when `ccut.size ≥ window_len + 1`,
where `end - window_len ≥ 0`, so truncated subtraction is faithful.) -/
def rect_window (ccut : Wave) : List ℚ :=
  (pySlice ccut (rect_end ccut - window_len) (rect_end ccut + window_len + 1)).map
    Prod.snd

/-- `Rectification.rectification` (centers only): not-available when the
falling curve has fewer than `window_len + 1 = 12` samples, otherwise
`steady - bottom` with `bottom` the mean of the windowed amplitudes. -/
def rectification (ccut : Wave) (steady : ℚ) : Option ℚ :=
  if ccut.size < window_len + 1 then none
  else some (steady - listMean (rect_window ccut))

/-- Concrete 12-sample falling curve with ascending amplitudes (its
argmin is 0) for claim C4. -/
def waveC4 : Wave :=
  [(0, 0), (1, 1), (2, 2), (3, 3), (4, 4), (5, 5), (6, 6), (7, 7),
   (8, 8), (9, 9), (10, 10), (11, 11)]

/-! ## process_common.py : get_file_name_with_version (claim C5) -/

/-- Numeric value of a digit string (most significant first). -/
def digitsToNat (ds : List Char) : ℕ :=
  ds.foldl (fun acc c => acc * 10 + (c.toNat - 48)) 0

/-- `file_.endswith(".py")` (a literal dot). -/
def endsWithDotPy (s : List Char) : Bool :=
  match s.reverse with
  | 'y' :: 'p' :: '.' :: _ => true
  | _ => false

/-- `re.search(r"_V(\d+).py$", s)`: the pattern matches a suffix
`_V<digits><anychar>py` (the dot of the pattern matches any character);
on success return the prefix before the underscore and the number. -/
def searchVersionPy (s : List Char) : Option (List Char × ℕ) :=
  match s.reverse with
  | 'y' :: 'p' :: _ :: rest =>
      let ds := rest.takeWhile Char.isDigit
      if ds.isEmpty then none
      else
        match rest.drop ds.length with
        | 'V' :: '_' :: pre => some (pre.reverse, digitsToNat ds.reverse)
        | _ => none
  | _ => none

/-- `re.search(r"_V\d+.p$", s)` — presence only: this pattern has NO
capture group (unlike its `.py` sibling), so the source can only test
it, and `.group(1)` on its match raises IndexError. -/
def searchVersionP (s : List Char) : Bool :=
  match s.reverse with
  | 'p' :: _ :: rest =>
      let ds := rest.takeWhile Char.isDigit
      if ds.isEmpty then false
      else
        match rest.drop ds.length with
        | 'V' :: '_' :: _ => true
        | _ => false
  | _ => false

/-- `get_file_name_with_version(file_)`.  `none` models the raised
IndexError: in the `.p` branch the source evaluates
`int(re.search(p_, file_).group(1))` although the pattern `p_` defines
no group.  The two fallback `re.sub` calls replace the trailing
`<anychar>py` / `<anychar>p` (present whenever the branch is reached
with a `.py` suffix; the `.p` fallback leaves non-`p` names unchanged). -/
def get_file_name_with_version (s : List Char) : Option (List Char) :=
  if endsWithDotPy s then
    match searchVersionPy s with
    | some (pre, n) =>
        some (pre ++ "_V".toList ++ (toString (n + 1)).toList ++ ".py".toList)
    | none => some (s.take (s.length - 3) ++ "_V1.py".toList)
  else if searchVersionP s then none
  else
    match s.reverse with
    | 'p' :: _ :: _ => some (s.take (s.length - 2) ++ "_V1.p".toList)
    | _ => some s

/-! ## basic_simulation.py : morph_morph_file (claims C6, C10) -/

/-- Index of the leftmost occurrence of `pat` in `l` (`re`-style
substring search). -/
def findSub (pat : List Char) : List Char → Option ℕ
  | [] => if pat.isEmpty then some 0 else none
  | c :: cs =>
      if pat.isPrefixOf (c :: cs) then some 0
      else (findSub pat cs).map (fun i => i + 1)

/-- Does `pat` occur in `l`. -/
def containsSub (l pat : List Char) : Bool := (findSub pat l).isSome

/-- The characters matched by `\*set_global <param> ` — the fixed part
of the pattern `(\*set_global {param}) .*` together with the space
that separates the parameter from its value. -/
def dirChars (param : List Char) : List Char :=
  "*set_global ".toList ++ param ++ [' ']

/-- `re.sub(r"(\*set_global P) .*", r"\1 value", t, count=1)` on a text
given as its list of lines (`.` does not match a newline, so a match
stays within one line): the first line containing the directive is
rewritten from the leftmost occurrence through the end of the line;
everything after the occurrence is consumed by `.*`. -/
def substFirst (param value : List Char) : List (List Char) → List (List Char)
  | [] => []
  | line :: rest =>
      match findSub (dirChars param) line with
      | some i => (line.take i ++ dirChars param ++ value) :: rest
      | none => line :: substFirst param value rest

/-- The body of the loop `for param in ("RA", "RM", "CM"): ...` —
apply the single-shot substitution when an override is present. -/
def substOpt (t : List (List Char)) (pv : List Char × Option (List Char)) :
    List (List Char) :=
  match pv.2 with
  | some v => substFirst pv.1 v t
  | none => t

/-- The parameter tuple `("RA", "RM", "CM")` iterated by the loop. -/
def morph_params : List (List Char) :=
  ["RA".toList, "RM".toList, "CM".toList]

/-- The (parameter, override) pairs the loop walks through. -/
def morph_pvs (vRA vRM vCM : Option (List Char)) :
    List (List Char × Option (List Char)) :=
  morph_params.zip [vRA, vRM, vCM]

/-- `morph_morph_file` restricted to its text transformation: read the
morphology file, substitute the first occurrence of each overridden
`*set_global` directive, return the new content. -/
def morph_morph_file (t : List (List Char))
    (vRA vRM vCM : Option (List Char)) : List (List Char) :=
  (morph_pvs vRA vRM vCM).foldl substOpt t

/-- First line index whose line contains `pat`. -/
def findIdxSub (pat : List Char) : List (List Char) → Option ℕ
  | [] => none
  | l :: rest =>
      if containsSub l pat then some 0
      else (findIdxSub pat rest).map (fun i => i + 1)

/-- A one-line morphology text whose single line holds the RA directive
twice, for claim C6. -/
def lineC6 : List Char := "*set_global RA 1 *set_global RA 2".toList

/-- A three-line morphology text with one RA and one RM directive, each
on its own line, for the C6 witness. -/
def tC6 : List (List Char) :=
  ["*set_global RA 1".toList, "xline".toList, "*set_global RM 2".toList]

/-! ## process_morph.py : update_morph_file_name (claim C8) -/

/-- The single-quote character (ASCII 39). -/
def quoteC : Char := Char.ofNat 39

/-- The `\s` class of the pattern (ASCII whitespace). -/
def isWSch (c : Char) : Bool :=
  c = ' ' || c = '\t' || c = '\n' || c = '\r' ||
    c = Char.ofNat 11 || c = Char.ofNat 12

/-- The filename character class `[0-9a-zA-Z\.\-_]`. -/
def isValCh (c : Char) : Bool :=
  c.isAlphanum || c = '.' || c = '-' || c = '_'

/-- Consume one expected character. -/
def expectChar (c : Char) : List Char → Option (List Char)
  | [] => none
  | x :: xs => if x = c then some xs else none

/-- Consume an expected literal character sequence. -/
def expectStr : List Char → List Char → Option (List Char)
  | [], cs => some cs
  | _, [] => none
  | k :: ks, c :: cs => if c = k then expectStr ks cs else none

/-- Try to match `\'key\'\s*:\s*\'[0-9a-zA-Z\.\-_]+\'` at the head of
`cs`; on success return the remainder after the match.  The greedy
subpatterns are deterministic here because `:` is not in `\s` and the
quote is not in the value class. -/
def matchEntry (key : List Char) (cs : List Char) : Option (List Char) :=
  (expectChar quoteC cs).bind fun cs1 =>
  (expectStr key cs1).bind fun cs2 =>
  (expectChar quoteC cs2).bind fun cs3 =>
  (expectChar ':' (cs3.dropWhile isWSch)).bind fun cs5 =>
  (expectChar quoteC (cs5.dropWhile isWSch)).bind fun cs7 =>
  let v := cs7.takeWhile isValCh
  if v.isEmpty then none
  else expectChar quoteC (cs7.drop v.length)

/-- The scanning loop of `re.sub` (no count): at each position try the
pattern; on a match emit the replacement and continue after the match,
otherwise keep one character and advance.  `f` is fuel, instantiated
with the length of the input, which bounds the number of steps. -/
def subAllF (key repl : List Char) : ℕ → List Char → List Char
  | 0, cs => cs
  | _ + 1, [] => []
  | f + 1, c :: cs =>
      match matchEntry key (c :: cs) with
      | some rest => repl ++ subAllF key repl f rest
      | none => c :: subAllF key repl f cs

/-- `update_morph_file_name(line, neuron_type, file_name)` =
`re.sub(pattern, "'neuron_type':'file_name'", line)`. -/
def update_morph_file_name (key fileName line : List Char) : List Char :=
  subAllF key
    ([quoteC] ++ key ++ [quoteC, ':', quoteC] ++ fileName ++ [quoteC])
    line.length line

/-- Concrete line for claim C8: `'D1' : 'old.p',` — whitespace around
the colon. -/
def lineC8 : List Char :=
  [quoteC, 'D', '1', quoteC, ' ', ':', ' ', quoteC, 'o', 'l', 'd', '.', 'p',
   quoteC, ',']

/-- The span the pattern `\'key\'\s*:\s*\'[0-9a-zA-Z\.\-_]+\'` matches:
quoted key, whitespace, colon, whitespace, quoted value. -/
def morphEntry (key ws1 ws2 val : List Char) : List Char :=
  [quoteC] ++ key ++ [quoteC] ++ ws1 ++ [':'] ++ ws2 ++ [quoteC] ++ val
    ++ [quoteC]

/-- The opening brace character. -/
def obraceC : Char := Char.ofNat 123

/-- The closing brace character. -/
def cbraceC : Char := Char.ofNat 125

/-- The part of the typical conductance-file mapping line before its
first entry: `morph_file = ` followed by the opening brace. -/
def preC8 : List Char := "morph_file = ".toList ++ [obraceC]

/-- The part of the same line after the first entry: a second entry for
another neuron type, `, \x27D2\x27:\x27b.p\x27`, and the closing
brace. -/
def postC8 : List Char :=
  [',', ' ', quoteC, 'D', '2', quoteC, ':', quoteC, 'b', '.', 'p', quoteC,
   cbraceC]

/-! ## Claim theorems -/

/-- C1 (counterexample): on the eleven-axis input (2, 0, …, 0) the
source returns sqrt(16/11) — `arr` already holds squares and is squared
again by `np.nansum(arr**2)` — while the claim describes sqrt(4/11);
the two differ. -/
theorem simple_combined_fitness_not_mean_of_squares :
    simple_combined_fitness axesC1 ≠ simple_combined_fitness_claimed axesC1 := by
  have h1 : simple_combined_fitness_radicand axesC1 = 16 / 11 := by
    norm_num [simple_combined_fitness_radicand, simple_combined_fitness_arr,
      nansum, sqOpt, axesC1, List.replicate]
  have h2 : simple_combined_fitness_claim_radicand axesC1 = 4 / 11 := by
    norm_num [simple_combined_fitness_claim_radicand, nansum, sqOpt, axesC1,
      List.replicate]
  have hlt : simple_combined_fitness_claimed axesC1
      < simple_combined_fitness axesC1 := by
    unfold simple_combined_fitness simple_combined_fitness_claimed
    rw [h1, h2]
    apply Real.sqrt_lt_sqrt
    · push_cast
      norm_num
    · push_cast
      norm_num
  exact ne_of_gt hlt

/-- C1 (amended): with `full=False`, `simple_combined_fitness` returns
the square root of (the NaN-aware sum of the FOURTH powers of the
eleven per-axis fitness values, divided by eleven). -/
theorem simple_combined_fitness_fourth_powers (axes : List (Option ℚ))
    (h : axes.length = 11) :
    simple_combined_fitness axes =
      Real.sqrt (((nansum (axes.map (fun v => v.map (fun x => x ^ 4))) / 11 : ℚ) : ℝ)) := by
  have hcomp : ∀ v : Option ℚ, sqOpt (sqOpt v) = v.map (fun x => x ^ 4) := by
    intro v
    cases v with
    | none => rfl
    | some x =>
        show some (x * x * (x * x)) = some (x ^ 4)
        congr 1
        ring
  have hfun : (sqOpt ∘ sqOpt) = (fun v : Option ℚ => v.map (fun x => x ^ 4)) := by
    funext v
    exact hcomp v
  unfold simple_combined_fitness simple_combined_fitness_radicand
    simple_combined_fitness_arr
  congr 1
  rw [List.map_map, hfun]
  rw [List.length_map, h]
  norm_num

/-- C1 (witness): the amended theorem applied to the concrete
eleven-axis input. -/
theorem simple_combined_fitness_fourth_powers_witness :
    axesC1.length = 11 ∧
      simple_combined_fitness axesC1 =
        Real.sqrt (((nansum (axesC1.map (fun v => v.map (fun x => x ^ 4))) / 11 : ℚ) : ℝ)) :=
  ⟨by decide, simple_combined_fitness_fourth_powers axesC1 (by decide)⟩

/-- C2 (code evaluated at the failing input): with score vectors
(1, 1) then (2, 2) — the second strictly dominated by the first on
every axis — `find_multi_best` with the default similarity 0.10
returns BOTH candidates: the early-discard loop only breaks out of
itself, so the dominated candidate is appended anyway, and no later
candidate removes it. -/
theorem find_multi_best_keeps_dominated :
    domLt [1, 1] [2, 2] = true ∧
    find_multi_best [[some (1 : ℚ), some 1], [some 2, some 2]]
        (fun s => s) (1 / 10)
      = [[some 1, some 1], [some 2, some 2]] := by
  constructor
  · decide
  · simp only [find_multi_best, sim_filter, List.foldl, fmb_step, allSome,
      List.insertionSort, List.orderedInsert]
    norm_num [simMark, domLt, sqTotal, distSq, List.filter, List.zip,
      List.zipWith, List.all, List.any, List.isEmpty]

/-- C3 (counterexample): on a 5-sample falling curve the optimizer is
invoked with initial guess (-1, 1), not with the computed
`init = (min amplitude − baseline, time span)` = (0, 4). -/
theorem falling_curve_fit_ignores_init :
    (fit_falling_curve_call waveC3 0).map CurveFitCall.p0 = some (-1, 1) ∧
    falling_init waveC3 0 = (0, 4) ∧
    (fit_falling_curve_call waveC3 0).map CurveFitCall.p0
      ≠ some (falling_init waveC3 0) := by
  have h2 : falling_init waveC3 0 = (0, 4) := by
    norm_num [falling_init, listMin, listMax, ptp, waveC3, Wave.xs, Wave.ys,
      min_def, max_def]
  refine ⟨by decide, h2, ?_⟩
  rw [h2]
  decide

/-- C3 (amended): for every falling curve with at least 5 samples the
nonlinear least-squares optimizer is invoked on the curve times and
baseline-subtracted amplitudes with the constant initial guess
(-1, 1); the computed `init` pair is never passed. -/
theorem falling_curve_fit_p0_constant (ccut : Wave) (baseline : ℚ)
    (h : 5 ≤ ccut.size) :
    fit_falling_curve_call ccut baseline =
      some ⟨ccut.xs, ccut.ys.map (fun y => y - baseline), (-1, 1)⟩ := by
  unfold fit_falling_curve_call
  rw [if_neg (by omega)]

/-- C3 (witness): the amended theorem at the concrete 5-sample curve. -/
theorem falling_curve_fit_p0_constant_witness :
    5 ≤ waveC3.size ∧
    fit_falling_curve_call waveC3 0 =
      some ⟨waveC3.xs, waveC3.ys.map (fun y => y - 0), (-1, 1)⟩ :=
  ⟨by decide, falling_curve_fit_p0_constant waveC3 0 (by decide)⟩

/-- C4 (counterexample): on a 12-sample falling curve with its minimum
at index 0, the averaged window holds 12 samples — not 21: `end` is at
least `size − 1`, so the slice `[end − 11 : end + 12]` always clips at
the end of the curve. -/
theorem rectification_window_not_21 :
    (rect_window waveC4).length = 12 ∧ (rect_window waveC4).length ≠ 21 ∧
    rectification waveC4 10 = some (9 / 2) := by
  refine ⟨by decide, by decide, ?_⟩
  have h : rect_window waveC4 = [0, 1, 2, 3, 4, 5, 6, 7, 8, 9, 10, 11] := by
    decide
  have hs : ¬ (waveC4.size < window_len + 1) := by decide
  unfold rectification
  rw [if_neg hs, h]
  norm_num [listMean, List.sum_cons, List.sum_nil]

/-- C4 (amended): rectification is not-available below `window_len + 1
= 12` samples; otherwise it is steady minus the mean of the amplitudes
in the slice `[end − window_len : end + window_len + 1]`, which after
clipping holds at most `window_len + 1 = 12` samples (not 21). -/
theorem rectification_window_clipped (ccut : Wave) (steady : ℚ) :
    (ccut.size < window_len + 1 → rectification ccut steady = none) ∧
    (window_len + 1 ≤ ccut.size →
      rectification ccut steady = some (steady - listMean (rect_window ccut)) ∧
      (rect_window ccut).length ≤ window_len + 1) := by
  have hw : window_len = 11 := rfl
  have hsz : ccut.size = ccut.length := rfl
  constructor
  · intro h
    unfold rectification
    rw [if_pos h]
  · intro h
    constructor
    · unfold rectification
      rw [if_neg (by omega)]
    · have hlen : (rect_window ccut).length
          = min (rect_end ccut + window_len + 1) ccut.length
              - (rect_end ccut - window_len) := by
        simp [rect_window, pySlice]
      have hend : ccut.length - 1 ≤ rect_end ccut := le_max_right _ _
      rw [hlen]
      omega

/-- C4 (witness): the amended theorem at the concrete 12-sample curve. -/
theorem rectification_window_clipped_witness :
    window_len + 1 ≤ waveC4.size ∧
    rectification waveC4 10 = some (10 - listMean (rect_window waveC4)) ∧
    (rect_window waveC4).length ≤ window_len + 1 :=
  ⟨by decide, ((rectification_window_clipped waveC4 10).2 (by decide)).1,
   ((rectification_window_clipped waveC4 10).2 (by decide)).2⟩

/-- C5 (code evaluated at the failing input): the version round trip
holds for `.py` files and for unversioned `.p` files, but an already
versioned `.p` file makes the source raise IndexError (`none` here):
the pattern has no capture group yet `.group(1)` is requested. -/
theorem get_file_name_with_version_versions :
    get_file_name_with_version "model.py".toList = some "model_V1.py".toList ∧
    get_file_name_with_version "model_V1.py".toList = some "model_V2.py".toList ∧
    get_file_name_with_version "morph.p".toList = some "morph_V1.p".toList ∧
    get_file_name_with_version "morph_V1.p".toList = none := by
  refine ⟨by decide, by decide, by decide, by decide⟩

/-- C10: with no RA, RM or CM override the morphology rewrite is the
identity on the file content. -/
theorem morph_morph_file_no_override_id (t : List (List Char)) :
    morph_morph_file t none none none = t := rfl

/-- The score ⊤ (= +infinity, the NaN replacement) characterizes the
not-available fitness. -/
theorem nanToInf_eq_top (v : Option ℚ) : nanToInf v = ⊤ ↔ v = none := by
  cases v <;> simp [nanToInf]

/-- `argminIdx` of a nonempty list is a valid index. -/
theorem argminIdx_lt (w : List (WithTop ℚ)) (h : w ≠ []) :
    argminIdx w < w.length := by
  induction w with
  | nil => cases h rfl
  | cons x xs ih =>
      by_cases hc : xs.all (fun y => decide (x ≤ y)) = true
      · simp [argminIdx, hc]
      · have hxs : xs ≠ [] := by
          intro he
          subst he
          exact hc rfl
        have := ih hxs
        simp only [argminIdx, if_neg hc, List.length_cons]
        omega

/-- The entry at `argminIdx` is minimal. -/
theorem argminIdx_min (w : List (WithTop ℚ)) (hlt : argminIdx w < w.length) :
    ∀ y ∈ w, w.get ⟨argminIdx w, hlt⟩ ≤ y := by
  induction w with
  | nil => intro y hy; cases hy
  | cons x xs ih =>
      by_cases hc : xs.all (fun y => decide (x ≤ y)) = true
      · intro y hy
        have hidx : argminIdx (x :: xs) = 0 := by simp [argminIdx, hc]
        rcases List.mem_cons.mp hy with rfl | hmem
        · simp [hidx]
        · have := (List.all_eq_true.mp hc) y hmem
          simp only [decide_eq_true_eq] at this
          simpa [hidx] using this
      · intro y hy
        have hidx : argminIdx (x :: xs) = argminIdx xs + 1 := by
          simp [argminIdx, hc]
        have hxs : xs ≠ [] := by
          intro he
          subst he
          exact hc rfl
        have hlt2 : argminIdx xs < xs.length := argminIdx_lt xs hxs
        have hget : (x :: xs).get ⟨argminIdx (x :: xs), hlt⟩
            = xs.get ⟨argminIdx xs, hlt2⟩ := by
          simp [hidx]
        rcases List.mem_cons.mp hy with rfl | hmem
        · have : ¬ (∀ z ∈ xs, decide (y ≤ z) = true) := by
            intro hz
            exact hc (List.all_eq_true.mpr hz)
          push_neg at this
          rcases this with ⟨z, hz, hnz⟩
          have hzy : z < y :=
            lt_of_not_le (fun hle => hnz (decide_eq_true hle))
          have hmin := ih hlt2 z hz
          rw [hget]
          exact le_of_lt (lt_of_le_of_lt hmin hzy)
        · rw [hget]
          exact ih hlt2 y hmem

/-- C7: in a group with at least one finite-scored candidate,
`find_best` returns a candidate whose score is available (NaN scores
were turned into +infinity, so the minimum is finite), and `fit_sort`
returns a permutation of the group sorted ascending by the
NaN-to-infinity score, with every NaN-scored candidate after all
finite-scored ones (positions after a NaN score are all NaN). -/
theorem find_best_fit_sort_nan_handling {α : Type} (group : List α)
    (fitness : α → Option ℚ)
    (hfin : ∃ a ∈ group, (fitness a).isSome = true) :
    (∃ b, find_best group fitness = some b ∧ (fitness b).isSome = true) ∧
    List.Sorted (fun a b => nanToInf (fitness a) ≤ nanToInf (fitness b))
      (fit_sort group fitness) ∧
    (fit_sort group fitness).Perm group ∧
    (∀ i j : Fin (fit_sort group fitness).length, i < j →
      fitness ((fit_sort group fitness).get i) = none →
      fitness ((fit_sort group fitness).get j) = none) := by
  haveI ht : IsTotal α (fun a b => nanToInf (fitness a) ≤ nanToInf (fitness b)) :=
    ⟨fun a b => le_total _ _⟩
  haveI htr : IsTrans α (fun a b => nanToInf (fitness a) ≤ nanToInf (fitness b)) :=
    ⟨fun a b c hab hbc => le_trans hab hbc⟩
  have hsorted := List.sorted_insertionSort
    (fun a b => nanToInf (fitness a) ≤ nanToInf (fitness b)) group
  refine ⟨?_, hsorted, List.perm_insertionSort _ group, ?_⟩
  · rcases hfin with ⟨a, ha, hsome⟩
    rcases Option.isSome_iff_exists.mp hsome with ⟨qa, hqa⟩
    have hne : group ≠ [] := by
      intro he
      subst he
      cases ha
    set w := group.map (fun s => nanToInf (fitness s)) with hw
    have hwne : w ≠ [] := by
      intro he
      exact hne (List.map_eq_nil_iff.mp he)
    have hlt : argminIdx w < w.length := argminIdx_lt w hwne
    have hltg : argminIdx w < group.length := by
      have hlen : w.length = group.length := by simp [hw]
      omega
    refine ⟨group.get ⟨argminIdx w, hltg⟩, ?_, ?_⟩
    · unfold find_best
      exact List.get?_eq_get hltg
    · by_contra hnot
      have hnone : fitness (group.get ⟨argminIdx w, hltg⟩) = none :=
        Option.not_isSome_iff_eq_none.mp (fun hs => hnot hs)
      have hgetw : w.get ⟨argminIdx w, hlt⟩
          = nanToInf (fitness (group.get ⟨argminIdx w, hltg⟩)) := by
        simp [hw, List.getElem_map]
      have hmem : nanToInf (fitness a) ∈ w :=
        List.mem_map_of_mem (fun s => nanToInf (fitness s)) ha
      have hle := argminIdx_min w hlt _ hmem
      rw [hgetw, hnone, hqa] at hle
      have : ((qa : ℚ) : WithTop ℚ) = ⊤ := top_le_iff.mp hle
      exact WithTop.coe_ne_top this
  · have hsorted2 : List.Sorted
        (fun a b => nanToInf (fitness a) ≤ nanToInf (fitness b))
        (fit_sort group fitness) := hsorted
    intro i j hij hnone
    have hpair := List.pairwise_iff_get.mp hsorted2 i j hij
    rw [hnone] at hpair
    have h2 : nanToInf (fitness ((fit_sort group fitness).get j)) = ⊤ :=
      top_le_iff.mp hpair
    exact (nanToInf_eq_top _).mp h2

/-- C7 (witness): the theorem at the concrete two-candidate group. -/
theorem find_best_fit_sort_nan_handling_witness :
    (∃ a ∈ groupC7, (fitnessC7 a).isSome = true) ∧
    ((∃ b, find_best groupC7 fitnessC7 = some b ∧ (fitnessC7 b).isSome = true) ∧
     List.Sorted (fun a b => nanToInf (fitnessC7 a) ≤ nanToInf (fitnessC7 b))
       (fit_sort groupC7 fitnessC7) ∧
     (fit_sort groupC7 fitnessC7).Perm groupC7 ∧
     (∀ i j : Fin (fit_sort groupC7 fitnessC7).length, i < j →
       fitnessC7 ((fit_sort groupC7 fitnessC7).get i) = none →
       fitnessC7 ((fit_sort groupC7 fitnessC7).get j) = none)) :=
  ⟨by decide, find_best_fit_sort_nan_handling groupC7 fitnessC7 (by decide)⟩

/-- C9: in a nonempty group where every candidate scores NaN,
`find_best` does not raise and returns the first candidate (all
scores become +infinity and the argmin of an all-infinite vector
is index 0). -/
theorem find_best_all_nan_returns_first {α : Type} (group : List α)
    (fitness : α → Option ℚ) (hne : group ≠ [])
    (hall : ∀ a ∈ group, fitness a = none) :
    find_best group fitness = group.head? := by
  cases group with
  | nil => cases hne rfl
  | cons g gs =>
      have hx : nanToInf (fitness g) = ⊤ := by
        rw [hall g (List.mem_cons_self g gs)]
        rfl
      have hcond : (gs.map (fun s => nanToInf (fitness s))).all
          (fun y => decide (nanToInf (fitness g) ≤ y)) = true := by
        rw [List.all_eq_true]
        intro y hy
        rcases List.mem_map.mp hy with ⟨a, ha, rfl⟩
        rw [hall a (List.mem_cons_of_mem g ha), hx]
        simp [nanToInf]
      unfold find_best
      simp only [List.map_cons, argminIdx, hcond, if_pos]
      rfl

/-- C9 (witness): the theorem at the concrete all-NaN group. -/
theorem find_best_all_nan_returns_first_witness :
    groupC9 ≠ [] ∧ (∀ a ∈ groupC9, fitnessC9 a = none) ∧
    find_best groupC9 fitnessC9 = groupC9.head? :=
  ⟨by decide, by decide,
   find_best_all_nan_returns_first groupC9 fitnessC9 (by decide) (by decide)⟩

/-! ### Helper lemmas for claim C8 -/

/-- Consuming a literal that heads the stream succeeds. -/
theorem expectStr_self (k r : List Char) : expectStr k (k ++ r) = some r := by
  induction k with
  | nil => simp [expectStr]
  | cons c cs ih => simp [expectStr, ih]

/-- A greedy skip over a run of satisfying characters stops exactly at
the first non-satisfying one. -/
theorem dropWhile_all_append (p : Char → Bool) (l : List Char) (r0 : Char)
    (rs : List Char) (hl : ∀ c ∈ l, p c = true) (hr : p r0 = false) :
    (l ++ r0 :: rs).dropWhile p = r0 :: rs := by
  induction l with
  | nil => simp [List.dropWhile, hr]
  | cons c cs ih =>
      have hc : p c = true := hl c (List.mem_cons_self c cs)
      simp only [List.cons_append, List.dropWhile, hc]
      exact ih (fun d hd => hl d (List.mem_cons_of_mem c hd))

/-- A greedy take over a run of satisfying characters returns the run. -/
theorem takeWhile_all_append (p : Char → Bool) (l : List Char) (r0 : Char)
    (rs : List Char) (hl : ∀ c ∈ l, p c = true) (hr : p r0 = false) :
    (l ++ r0 :: rs).takeWhile p = l := by
  induction l with
  | nil => simp [List.takeWhile, hr]
  | cons c cs ih =>
      have hc : p c = true := hl c (List.mem_cons_self c cs)
      simp only [List.cons_append, List.takeWhile, hc]
      exact congrArg (c :: ·) (ih (fun d hd => hl d (List.mem_cons_of_mem c hd)))

/-- Consuming the expected head character succeeds. -/
theorem expectChar_self (c : Char) (cs : List Char) :
    expectChar c (c :: cs) = some cs := by
  simp [expectChar]

/-- The pattern matches a well-formed quoted entry and consumes exactly
through its closing quote. -/
theorem matchEntry_entry (key ws1 ws2 val post : List Char)
    (hws1 : ∀ c ∈ ws1, isWSch c = true) (hws2 : ∀ c ∈ ws2, isWSch c = true)
    (hval : val ≠ []) (hvalc : ∀ c ∈ val, isValCh c = true) :
    matchEntry key
      ([quoteC] ++ key ++ [quoteC] ++ ws1 ++ [':'] ++ ws2 ++ [quoteC] ++ val
        ++ [quoteC] ++ post) = some post := by
  have hcolon : isWSch ':' = false := by decide
  have hqws : isWSch quoteC = false := by decide
  have hqval : isValCh quoteC = false := by decide
  have hvne : val.isEmpty = false := by
    cases val with
    | nil => exact absurd rfl hval
    | cons _ _ => rfl
  simp only [List.append_assoc, List.singleton_append, List.cons_append,
    List.nil_append]
  unfold matchEntry
  rw [expectChar_self]
  rw [Option.some_bind]
  rw [expectStr_self]
  rw [Option.some_bind]
  rw [expectChar_self]
  rw [Option.some_bind]
  rw [dropWhile_all_append isWSch ws1 ':' _ hws1 hcolon]
  rw [expectChar_self]
  rw [Option.some_bind]
  rw [dropWhile_all_append isWSch ws2 quoteC _ hws2 hqws]
  rw [expectChar_self]
  rw [Option.some_bind]
  simp only [takeWhile_all_append isValCh val quoteC post hvalc hqval, hvne,
    Bool.false_eq_true, if_false, List.drop_left]
  rw [expectChar_self]

/-- If the pattern matches at no position of a text, the substitution
scan leaves it unchanged. -/
theorem subAllF_noMatch (key repl : List Char) :
    ∀ (f : ℕ) (l : List Char),
      (∀ i < l.length, matchEntry key (l.drop i) = none) →
      subAllF key repl f l = l := by
  intro f
  induction f with
  | zero => intro l _; rfl
  | succ f ih =>
      intro l hl
      cases l with
      | nil => rfl
      | cons c cs =>
          have h0 : matchEntry key (c :: cs) = none := by
            have := hl 0 (by simp)
            simpa using this
          unfold subAllF
          rw [h0]
          rw [ih cs ?_]
          intro i hi
          have := hl (i + 1) (by simp only [List.length_cons]; omega)
          simpa using this

/-- Scanning a prefix at which the pattern never matches, then a
well-formed entry, then a tail at which the pattern never matches,
replaces exactly the entry. -/
theorem subAllF_scan (key repl entry post : List Char)
    (hentry_ne : entry ≠ [])
    (hmatch : matchEntry key (entry ++ post) = some post)
    (hpost : ∀ i < post.length, matchEntry key (post.drop i) = none) :
    ∀ (pre : List Char) (f : ℕ),
      (∀ i < pre.length,
        matchEntry key ((pre ++ entry ++ post).drop i) = none) →
      pre.length + entry.length + post.length ≤ f →
      subAllF key repl f (pre ++ entry ++ post) = pre ++ repl ++ post := by
  intro pre
  induction pre with
  | nil =>
      intro f hpre hf
      cases entry with
      | nil => exact absurd rfl hentry_ne
      | cons e etail =>
          cases f with
          | zero =>
              simp only [List.length_nil, List.length_cons] at hf
              omega
          | succ f =>
              simp only [List.nil_append, List.cons_append]
              unfold subAllF
              have hm : matchEntry key (e :: (etail ++ post)) = some post := by
                simpa using hmatch
              rw [hm]
              show repl ++ subAllF key repl f post = repl ++ post
              rw [subAllF_noMatch key repl f post hpost]
  | cons c cs ih =>
      intro f hpre hf
      cases f with
      | zero =>
          simp only [List.length_cons] at hf
          omega
      | succ f =>
          have hc : matchEntry key (c :: (cs ++ entry ++ post)) = none := by
            have := hpre 0 (by simp)
            simpa using this
          have hpre2 : ∀ i < cs.length,
              matchEntry key ((cs ++ entry ++ post).drop i) = none := by
            intro i hi
            have := hpre (i + 1) (by simp only [List.length_cons]; omega)
            simpa using this
          have hrec := ih f hpre2
            (by simp only [List.length_cons] at hf ⊢; omega)
          simp only [List.cons_append]
          unfold subAllF
          rw [hc]
          show c :: subAllF key repl f (cs ++ entry ++ post)
            = c :: (cs ++ repl ++ post)
          rw [hrec]

/-- C8 (amended): on a line made of a context at which the pattern
matches nowhere, the quoted key/value entry (arbitrary whitespace
around the colon), and a tail at which the pattern matches nowhere —
which covers the typical multi-entry `morph_file` mapping line, since
entries for other neuron types never match the key's pattern —
`update_morph_file_name` replaces the whole matched span with the
normalized form holding the new filename; the context and tail are
unchanged, but whitespace around the colon inside the entry is not
preserved. -/
theorem update_morph_file_name_rewrites_entry
    (key fileName pre ws1 ws2 val post : List Char)
    (hws1 : ∀ c ∈ ws1, isWSch c = true) (hws2 : ∀ c ∈ ws2, isWSch c = true)
    (hval : val ≠ []) (hvalc : ∀ c ∈ val, isValCh c = true)
    (hpre : ∀ i < pre.length,
      matchEntry key ((pre ++ morphEntry key ws1 ws2 val ++ post).drop i)
        = none)
    (hpost : ∀ i < post.length, matchEntry key (post.drop i) = none) :
    update_morph_file_name key fileName
        (pre ++ morphEntry key ws1 ws2 val ++ post)
      = pre ++ [quoteC] ++ key ++ [quoteC, ':', quoteC] ++ fileName
          ++ [quoteC] ++ post := by
  have hmatch := matchEntry_entry key ws1 ws2 val post hws1 hws2 hval hvalc
  have hentry_ne : morphEntry key ws1 ws2 val ≠ [] := by
    simp [morphEntry]
  have hmatch2 : matchEntry key (morphEntry key ws1 ws2 val ++ post)
      = some post := by
    rw [show morphEntry key ws1 ws2 val ++ post
        = [quoteC] ++ key ++ [quoteC] ++ ws1 ++ [':'] ++ ws2 ++ [quoteC]
            ++ val ++ [quoteC] ++ post from by
      simp [morphEntry, List.append_assoc]]
    exact hmatch
  unfold update_morph_file_name
  rw [subAllF_scan key _ (morphEntry key ws1 ws2 val) post hentry_ne hmatch2
      hpost pre _ hpre (by simp [List.length_append]; omega)]
  simp [List.append_assoc]

/-- C8 (counterexample): on the line `'D1' : 'old.p',` the rewrite
returns `'D1':'new.p',` — the whitespace around the colon inside the
matched span is replaced along with the value, so the line is NOT
unchanged outside the quoted value. -/
theorem update_morph_file_name_eats_whitespace :
    update_morph_file_name "D1".toList "new.p".toList lineC8
      = [quoteC, 'D', '1', quoteC, ':', quoteC, 'n', 'e', 'w', '.', 'p',
         quoteC, ','] ∧
    update_morph_file_name "D1".toList "new.p".toList lineC8
      ≠ [quoteC, 'D', '1', quoteC, ' ', ':', ' ', quoteC, 'n', 'e', 'w', '.',
         'p', quoteC, ','] := by
  refine ⟨by decide, by decide⟩

/-- C8 (witness): the amended theorem applied to the typical
multi-entry mapping line `morph_file = ` brace `\x27D1\x27:\x27a.p\x27, \x27D2\x27:\x27b.p\x27` brace,
with key `D1` and new filename `new.p`; the second entry and the braces
are untouched. -/
theorem update_morph_file_name_rewrites_entry_witness :
    (∀ c ∈ ([] : List Char), isWSch c = true) ∧
    ("a.p".toList : List Char) ≠ [] ∧
    (∀ c ∈ "a.p".toList, isValCh c = true) ∧
    (∀ i < preC8.length,
      matchEntry "D1".toList
        ((preC8 ++ morphEntry "D1".toList [] [] "a.p".toList ++ postC8).drop i)
        = none) ∧
    (∀ i < postC8.length,
      matchEntry "D1".toList (postC8.drop i) = none) ∧
    update_morph_file_name "D1".toList "new.p".toList
        (preC8 ++ morphEntry "D1".toList [] [] "a.p".toList ++ postC8)
      = preC8 ++ [quoteC] ++ "D1".toList ++ [quoteC, ':', quoteC]
          ++ "new.p".toList ++ [quoteC] ++ postC8 :=
  ⟨by decide, by decide, by decide, by decide, by decide,
   update_morph_file_name_rewrites_entry "D1".toList "new.p".toList preC8
     [] [] "a.p".toList postC8 (by decide) (by decide) (by decide) (by decide)
     (by decide) (by decide)⟩

/-- If no line contains the directive, the substitution is the
identity. -/
theorem substFirst_nomatch (p v : List Char) (t : List (List Char))
    (h : findIdxSub (dirChars p) t = none) : substFirst p v t = t := by
  induction t with
  | nil => rfl
  | cons l rest ih =>
      cases hf : findSub (dirChars p) l with
      | some i =>
          exfalso
          have hc : containsSub l (dirChars p) = true := by
            simp [containsSub, hf]
          have : findIdxSub (dirChars p) (l :: rest) = some 0 := by
            simp only [findIdxSub]
            rw [if_pos hc]
          rw [this] at h
          cases h
      | none =>
          have hc : ¬ (containsSub l (dirChars p) = true) := by
            simp [containsSub, hf]
          have hstep : substFirst p v (l :: rest) = l :: substFirst p v rest := by
            simp only [substFirst]
            rw [hf]
          have hidx : findIdxSub (dirChars p) (l :: rest)
              = (findIdxSub (dirChars p) rest).map (fun i => i + 1) := by
            simp only [findIdxSub]
            rw [if_neg hc]
          rw [hidx] at h
          have hrest : findIdxSub (dirChars p) rest = none := by
            cases hrr : findIdxSub (dirChars p) rest with
            | none => rfl
            | some k => rw [hrr] at h; cases h
          rw [hstep, ih hrest]

/-- The first matching line index points at a line containing the
pattern. -/
theorem findIdxSub_some (pat : List Char) (t : List (List Char)) (i : ℕ)
    (h : findIdxSub pat t = some i) :
    ∃ l, t.get? i = some l ∧ containsSub l pat = true := by
  induction t generalizing i with
  | nil => cases h
  | cons l rest ih =>
      by_cases hc : containsSub l pat = true
      · have : findIdxSub pat (l :: rest) = some 0 := by
          simp only [findIdxSub]
          rw [if_pos hc]
        rw [this] at h
        injection h with h0
        subst h0
        exact ⟨l, rfl, hc⟩
      · have hidx : findIdxSub pat (l :: rest)
            = (findIdxSub pat rest).map (fun k => k + 1) := by
          simp only [findIdxSub]
          rw [if_neg hc]
        rw [hidx] at h
        cases hrr : findIdxSub pat rest with
        | none => rw [hrr] at h; cases h
        | some k =>
            rw [hrr] at h
            injection h with hk
            obtain ⟨l2, hget, hcont⟩ := ih k hrr
            refine ⟨l2, ?_, hcont⟩
            rw [← hk]
            simpa using hget

/-- Every line other than the first matching one is unchanged by the
substitution. -/
theorem substFirst_get?_ne (p v : List Char) (t : List (List Char)) (i j : ℕ)
    (h : findIdxSub (dirChars p) t = some i) (hne : j ≠ i) :
    (substFirst p v t).get? j = t.get? j := by
  induction t generalizing i j with
  | nil => rfl
  | cons l rest ih =>
      cases hf : findSub (dirChars p) l with
      | some k =>
          have hc : containsSub l (dirChars p) = true := by
            simp [containsSub, hf]
          have hstep : substFirst p v (l :: rest)
              = (l.take k ++ dirChars p ++ v) :: rest := by
            simp only [substFirst]
            rw [hf]
          have hidx : findIdxSub (dirChars p) (l :: rest) = some 0 := by
            simp only [findIdxSub]
            rw [if_pos hc]
          rw [hidx] at h
          injection h with h0
          rw [hstep]
          cases j with
          | zero => exact absurd h0 hne
          | succ jj => simp
      | none =>
          have hc : ¬ (containsSub l (dirChars p) = true) := by
            simp [containsSub, hf]
          have hstep : substFirst p v (l :: rest) = l :: substFirst p v rest := by
            simp only [substFirst]
            rw [hf]
          have hidx : findIdxSub (dirChars p) (l :: rest)
              = (findIdxSub (dirChars p) rest).map (fun x => x + 1) := by
            simp only [findIdxSub]
            rw [if_neg hc]
          rw [hidx] at h
          cases hrr : findIdxSub (dirChars p) rest with
          | none => rw [hrr] at h; cases h
          | some k =>
              rw [hrr] at h
              simp only [Option.map_some'] at h
              injection h with hk
              rw [hstep]
              cases j with
              | zero => rfl
              | succ jj =>
                  simp only [List.get?_cons_succ]
                  refine ih k jj hrr ?_
                  intro he
                  apply hne
                  omega

/-- The first matching line is rewritten from the leftmost occurrence
of the directive through the end of the line. -/
theorem substFirst_get?_eq (p v : List Char) (t : List (List Char)) (i : ℕ)
    (h : findIdxSub (dirChars p) t = some i) :
    ∃ l, t.get? i = some l ∧ containsSub l (dirChars p) = true ∧
      (substFirst p v t).get? i
        = some (l.take ((findSub (dirChars p) l).getD 0) ++ dirChars p ++ v) := by
  induction t generalizing i with
  | nil => cases h
  | cons l rest ih =>
      cases hf : findSub (dirChars p) l with
      | some k =>
          have hc : containsSub l (dirChars p) = true := by
            simp [containsSub, hf]
          have hstep : substFirst p v (l :: rest)
              = (l.take k ++ dirChars p ++ v) :: rest := by
            simp only [substFirst]
            rw [hf]
          have hidx : findIdxSub (dirChars p) (l :: rest) = some 0 := by
            simp only [findIdxSub]
            rw [if_pos hc]
          rw [hidx] at h
          injection h with h0
          subst h0
          refine ⟨l, rfl, hc, ?_⟩
          rw [hstep, hf]
          rfl
      | none =>
          have hc : ¬ (containsSub l (dirChars p) = true) := by
            simp [containsSub, hf]
          have hstep : substFirst p v (l :: rest) = l :: substFirst p v rest := by
            simp only [substFirst]
            rw [hf]
          have hidx : findIdxSub (dirChars p) (l :: rest)
              = (findIdxSub (dirChars p) rest).map (fun x => x + 1) := by
            simp only [findIdxSub]
            rw [if_neg hc]
          rw [hidx] at h
          cases hrr : findIdxSub (dirChars p) rest with
          | none => rw [hrr] at h; cases h
          | some k =>
              rw [hrr] at h
              simp only [Option.map_some'] at h
              injection h with hk
              subst hk
              obtain ⟨l2, hget, hcont, hsub⟩ := ih k hrr
              refine ⟨l2, by simpa using hget, hcont, ?_⟩
              rw [hstep]
              simpa using hsub

/-- A line of the rewritten text is an original line or the rewritten
first match. -/
theorem mem_substFirst {p v : List Char} {t : List (List Char)}
    {lo : List Char} (h : lo ∈ substFirst p v t) :
    lo ∈ t ∨ ∃ l ∈ t, containsSub l (dirChars p) = true ∧
      lo = l.take ((findSub (dirChars p) l).getD 0) ++ dirChars p ++ v := by
  induction t with
  | nil => cases h
  | cons l rest ih =>
      cases hf : findSub (dirChars p) l with
      | some k =>
          have hstep : substFirst p v (l :: rest)
              = (l.take k ++ dirChars p ++ v) :: rest := by
            simp only [substFirst]
            rw [hf]
          rw [hstep] at h
          rcases List.mem_cons.mp h with he | hmem
          · right
            refine ⟨l, List.mem_cons_self l rest, by simp [containsSub, hf], ?_⟩
            rw [hf]
            simpa using he
          · left
            exact List.mem_cons_of_mem l hmem
      | none =>
          have hstep : substFirst p v (l :: rest) = l :: substFirst p v rest := by
            simp only [substFirst]
            rw [hf]
          rw [hstep] at h
          rcases List.mem_cons.mp h with he | hmem
          · left
            rw [he]
            exact List.mem_cons_self l rest
          · rcases ih hmem with hin | ⟨l2, hl2, hc2, he2⟩
            · left
              exact List.mem_cons_of_mem l hin
            · right
              exact ⟨l2, List.mem_cons_of_mem l hl2, hc2, he2⟩

/-- Substituting parameter `p` does not move the first matching line of
a directive that occurs neither on the matched line nor in its
replacement. -/
theorem findIdxSub_substFirst (p v q : List Char) (t : List (List Char))
    (h : ∀ l ∈ t, containsSub l (dirChars p) = true →
      containsSub l (dirChars q) = false ∧
      containsSub (l.take ((findSub (dirChars p) l).getD 0) ++ dirChars p ++ v)
        (dirChars q) = false) :
    findIdxSub (dirChars q) (substFirst p v t)
      = findIdxSub (dirChars q) t := by
  induction t with
  | nil => rfl
  | cons l rest ih =>
      cases hf : findSub (dirChars p) l with
      | some k =>
          have hc : containsSub l (dirChars p) = true := by
            simp [containsSub, hf]
          obtain ⟨h1, h2⟩ := h l (List.mem_cons_self l rest) hc
          rw [hf] at h2
          have hstep : substFirst p v (l :: rest)
              = (l.take k ++ dirChars p ++ v) :: rest := by
            simp only [substFirst]
            rw [hf]
          rw [hstep]
          have hl : findIdxSub (dirChars q) ((l.take k ++ dirChars p ++ v) :: rest)
              = (findIdxSub (dirChars q) rest).map (fun x => x + 1) := by
            simp only [findIdxSub]
            rw [if_neg (by simpa using h2)]
          have hr : findIdxSub (dirChars q) (l :: rest)
              = (findIdxSub (dirChars q) rest).map (fun x => x + 1) := by
            simp only [findIdxSub]
            rw [if_neg (by simp [h1])]
          rw [hl, hr]
      | none =>
          have hstep : substFirst p v (l :: rest) = l :: substFirst p v rest := by
            simp only [substFirst]
            rw [hf]
          rw [hstep]
          by_cases hcq : containsSub l (dirChars q) = true
          · have hl : findIdxSub (dirChars q) (l :: substFirst p v rest) = some 0 := by
              simp only [findIdxSub]
              rw [if_pos hcq]
            have hr : findIdxSub (dirChars q) (l :: rest) = some 0 := by
              simp only [findIdxSub]
              rw [if_pos hcq]
            rw [hl, hr]
          · have hl : findIdxSub (dirChars q) (l :: substFirst p v rest)
                = (findIdxSub (dirChars q) (substFirst p v rest)).map (fun x => x + 1) := by
              simp only [findIdxSub]
              rw [if_neg hcq]
            have hr : findIdxSub (dirChars q) (l :: rest)
                = (findIdxSub (dirChars q) rest).map (fun x => x + 1) := by
              simp only [findIdxSub]
              rw [if_neg hcq]
            rw [hl, hr, ih (fun l2 hl2 hc2 => h l2 (List.mem_cons_of_mem l hl2) hc2)]

/-- Frame property of the substitution loop: under the line discipline
(each directive occurrence starts its line, no line carries two
distinct parameters, and no override value embeds a directive) the
loop rewrites exactly the first matching line of each overridden
parameter to `directive ++ value` and leaves every other line
byte-identical. -/
theorem foldSubst_frame (pvs : List (List Char × Option (List Char))) :
    ∀ (t : List (List Char)),
      (pvs.map Prod.fst).Nodup →
      (∀ l ∈ t, ∀ pv ∈ pvs, containsSub l (dirChars pv.1) = true →
        findSub (dirChars pv.1) l = some 0) →
      (∀ l ∈ t, ∀ pv ∈ pvs, ∀ qv ∈ pvs, pv.1 ≠ qv.1 →
        ¬(containsSub l (dirChars pv.1) = true ∧
          containsSub l (dirChars qv.1) = true)) →
      (∀ pv ∈ pvs, ∀ v, pv.2 = some v → ∀ qv ∈ pvs, pv.1 ≠ qv.1 →
        containsSub (dirChars pv.1 ++ v) (dirChars qv.1) = false) →
      ∀ j : ℕ,
      ((∀ pv ∈ pvs, ∀ v, pv.2 = some v →
          findIdxSub (dirChars pv.1) t ≠ some j) →
        (pvs.foldl substOpt t).get? j = t.get? j) ∧
      (∀ pv ∈ pvs, ∀ v, pv.2 = some v →
        findIdxSub (dirChars pv.1) t = some j →
        (pvs.foldl substOpt t).get? j = some (dirChars pv.1 ++ v)) := by
  induction pvs with
  | nil =>
      intro t _ _ _ _ j
      exact ⟨fun _ => rfl, fun pv hpv => absurd hpv (List.not_mem_nil pv)⟩
  | cons pv rest ih =>
      intro t hnodup H1 H2 H3 j
      have hnodup2 : (pv.1 :: rest.map Prod.fst).Nodup := by
        simpa using hnodup
      obtain ⟨hnotmem, hndrest⟩ := List.nodup_cons.mp hnodup2
      have hne_rest : ∀ qv ∈ rest, pv.1 ≠ qv.1 := by
        intro qv hq he
        exact hnotmem (he ▸ List.mem_map_of_mem Prod.fst hq)
      rw [List.foldl_cons]
      cases hv : pv.2 with
      | none =>
          have hsub : substOpt t pv = t := by simp [substOpt, hv]
          rw [hsub]
          have IH := ih t hndrest
            (fun l hl qv hq => H1 l hl qv (List.mem_cons_of_mem pv hq))
            (fun l hl pv2 hp2 qv hq => H2 l hl pv2 (List.mem_cons_of_mem pv hp2)
              qv (List.mem_cons_of_mem pv hq))
            (fun pv2 hp2 w hw qv hq => H3 pv2 (List.mem_cons_of_mem pv hp2) w hw
              qv (List.mem_cons_of_mem pv hq))
            j
          constructor
          · intro hno
            exact IH.1 (fun qv hq w hw =>
              hno qv (List.mem_cons_of_mem pv hq) w hw)
          · intro qv hq w hw hfx
            rcases List.mem_cons.mp hq with rfl | hq2
            · rw [hv] at hw
              cases hw
            · exact IH.2 qv hq2 w hw hfx
      | some v =>
          cases hfx : findIdxSub (dirChars pv.1) t with
          | none =>
              have hsub : substOpt t pv = t := by
                simp [substOpt, hv, substFirst_nomatch pv.1 v t hfx]
              rw [hsub]
              have IH := ih t hndrest
                (fun l hl qv hq => H1 l hl qv (List.mem_cons_of_mem pv hq))
                (fun l hl pv2 hp2 qv hq => H2 l hl pv2 (List.mem_cons_of_mem pv hp2)
                  qv (List.mem_cons_of_mem pv hq))
                (fun pv2 hp2 w hw qv hq => H3 pv2 (List.mem_cons_of_mem pv hp2) w hw
                  qv (List.mem_cons_of_mem pv hq))
                j
              constructor
              · intro hno
                exact IH.1 (fun qv hq w hw =>
                  hno qv (List.mem_cons_of_mem pv hq) w hw)
              · intro qv hq w hw hfq
                rcases List.mem_cons.mp hq with rfl | hq2
                · rw [hfx] at hfq
                  cases hfq
                · exact IH.2 qv hq2 w hw hfq
          | some i =>
              have hsub : substOpt t pv = substFirst pv.1 v t := by
                simp [substOpt, hv]
              rw [hsub]
              obtain ⟨li, hgeti, hconti, hrepli⟩ :=
                substFirst_get?_eq pv.1 v t i hfx
              have hlimem : li ∈ t := List.get?_mem hgeti
              have hfs0 : findSub (dirChars pv.1) li = some 0 :=
                H1 li hlimem pv (List.mem_cons_self pv rest) hconti
              have hrepl_eq : (substFirst pv.1 v t).get? i
                  = some (dirChars pv.1 ++ v) := by
                rw [hrepli, hfs0]
                simp
              have H1rest : ∀ l ∈ substFirst pv.1 v t, ∀ qv ∈ rest,
                  containsSub l (dirChars qv.1) = true →
                  findSub (dirChars qv.1) l = some 0 := by
                intro l hl qv hq hc
                rcases mem_substFirst hl with hin | ⟨l2, hl2, hc2, he2⟩
                · exact H1 l hin qv (List.mem_cons_of_mem pv hq) hc
                · exfalso
                  have hfs2 : findSub (dirChars pv.1) l2 = some 0 :=
                    H1 l2 hl2 pv (List.mem_cons_self pv rest) hc2
                  rw [hfs2] at he2
                  simp only [Option.getD_some, List.take_zero,
                    List.nil_append] at he2
                  rw [he2] at hc
                  rw [H3 pv (List.mem_cons_self pv rest) v hv qv
                    (List.mem_cons_of_mem pv hq) (hne_rest qv hq)] at hc
                  cases hc
              have H2rest : ∀ l ∈ substFirst pv.1 v t, ∀ pv2 ∈ rest,
                  ∀ qv ∈ rest, pv2.1 ≠ qv.1 →
                  ¬(containsSub l (dirChars pv2.1) = true ∧
                    containsSub l (dirChars qv.1) = true) := by
                intro l hl pv2 hp2 qv hq hne2 hboth
                rcases mem_substFirst hl with hin | ⟨l2, hl2, hc2, he2⟩
                · exact H2 l hin pv2 (List.mem_cons_of_mem pv hp2) qv
                    (List.mem_cons_of_mem pv hq) hne2 hboth
                · have hfs2 : findSub (dirChars pv.1) l2 = some 0 :=
                    H1 l2 hl2 pv (List.mem_cons_self pv rest) hc2
                  rw [hfs2] at he2
                  simp only [Option.getD_some, List.take_zero,
                    List.nil_append] at he2
                  rw [he2] at hboth
                  rw [H3 pv (List.mem_cons_self pv rest) v hv pv2
                    (List.mem_cons_of_mem pv hp2) (hne_rest pv2 hp2)] at hboth
                  cases hboth.1
              have hIdx : ∀ qv ∈ rest,
                  findIdxSub (dirChars qv.1) (substFirst pv.1 v t)
                    = findIdxSub (dirChars qv.1) t := by
                intro qv hq
                apply findIdxSub_substFirst
                intro l hl hcl
                constructor
                · cases hcq : containsSub l (dirChars qv.1) with
                  | false => rfl
                  | true =>
                      exact absurd ⟨hcl, hcq⟩
                        (H2 l hl pv (List.mem_cons_self pv rest) qv
                          (List.mem_cons_of_mem pv hq) (hne_rest qv hq))
                · have hfs2 : findSub (dirChars pv.1) l = some 0 :=
                    H1 l hl pv (List.mem_cons_self pv rest) hcl
                  rw [hfs2]
                  simp only [Option.getD_some, List.take_zero, List.nil_append]
                  exact H3 pv (List.mem_cons_self pv rest) v hv qv
                    (List.mem_cons_of_mem pv hq) (hne_rest qv hq)
              have IH := ih (substFirst pv.1 v t) hndrest H1rest H2rest
                (fun pv2 hp2 w hw qv hq => H3 pv2 (List.mem_cons_of_mem pv hp2)
                  w hw qv (List.mem_cons_of_mem pv hq))
                j
              constructor
              · intro hno
                have hij : i ≠ j := by
                  intro he
                  exact hno pv (List.mem_cons_self pv rest) v hv (he ▸ hfx)
                have ht'j : (substFirst pv.1 v t).get? j = t.get? j :=
                  substFirst_get?_ne pv.1 v t i j hfx (fun he => hij he.symm)
                rw [IH.1 ?hrestno, ht'j]
                case hrestno =>
                  intro qv hq w hw
                  rw [hIdx qv hq]
                  exact hno qv (List.mem_cons_of_mem pv hq) w hw
              · intro qv hq w hw hfq
                rcases List.mem_cons.mp hq with rfl | hq2
                · have hij : i = j := by
                    rw [hfx] at hfq
                    injection hfq
                  have hvw : v = w := by
                    rw [hv] at hw
                    injection hw
                  subst hij
                  subst hvw
                  rw [IH.1 ?hrestno2]
                  · exact hrepl_eq
                  case hrestno2 =>
                    intro qv2 hq2 w2 hw2
                    rw [hIdx qv2 hq2]
                    intro habs
                    obtain ⟨l2, hget2, hcont2⟩ :=
                      findIdxSub_some (dirChars qv2.1) t i habs
                    have hli : li = l2 := by
                      rw [hgeti] at hget2
                      injection hget2
                    have hcont2b : containsSub li (dirChars qv2.1) = true := by
                      rw [hli]
                      exact hcont2
                    exact H2 li hlimem qv (List.mem_cons_self qv rest) qv2
                      (List.mem_cons_of_mem qv hq2) (hne_rest qv2 hq2)
                      ⟨hconti, hcont2b⟩
                · have := IH.2 qv hq2 w hw (by rw [hIdx qv hq2]; exact hfq)
                  exact this

/-- C6 (counterexample): a line holding the RA directive twice is
rewritten from its first occurrence through the end of the line, so
the later occurrence on the same line is destroyed rather than left
byte-identical as the claim states. -/
theorem morph_morph_file_same_line_occurrence :
    morph_morph_file [lineC6] (some "5".toList) none none
      = ["*set_global RA 5".toList] ∧
    ("*set_global RA 5".toList : List Char)
      ≠ "*set_global RA 5 *set_global RA 2".toList := by
  refine ⟨by decide, by decide⟩

/-- C6 (amended): for texts in which every `*set_global` directive
occurrence starts its line and no line carries directives of two
different parameters, and override values that embed no directive, the
rewrite changes exactly the first directive line of each overridden
parameter (that line becomes `*set_global <P> <value>`), leaves every
other line byte-identical, and leaves parameters without an override
entirely untouched. -/
theorem morph_morph_file_frame (t : List (List Char))
    (vRA vRM vCM : Option (List Char)) (j : ℕ)
    (H1 : ∀ l ∈ t, ∀ pv ∈ morph_pvs vRA vRM vCM,
      containsSub l (dirChars pv.1) = true → findSub (dirChars pv.1) l = some 0)
    (H2 : ∀ l ∈ t, ∀ pv ∈ morph_pvs vRA vRM vCM, ∀ qv ∈ morph_pvs vRA vRM vCM,
      pv.1 ≠ qv.1 → ¬(containsSub l (dirChars pv.1) = true ∧
        containsSub l (dirChars qv.1) = true))
    (H3 : ∀ pv ∈ morph_pvs vRA vRM vCM, ∀ v, pv.2 = some v →
      ∀ qv ∈ morph_pvs vRA vRM vCM, pv.1 ≠ qv.1 →
      containsSub (dirChars pv.1 ++ v) (dirChars qv.1) = false) :
    ((∀ pv ∈ morph_pvs vRA vRM vCM, ∀ v, pv.2 = some v →
        findIdxSub (dirChars pv.1) t ≠ some j) →
      (morph_morph_file t vRA vRM vCM).get? j = t.get? j) ∧
    (∀ pv ∈ morph_pvs vRA vRM vCM, ∀ v, pv.2 = some v →
      findIdxSub (dirChars pv.1) t = some j →
      (morph_morph_file t vRA vRM vCM).get? j = some (dirChars pv.1 ++ v)) ∧
    (∀ pv ∈ morph_pvs vRA vRM vCM, pv.2 = none →
      ∀ l, t.get? j = some l → containsSub l (dirChars pv.1) = true →
      (morph_morph_file t vRA vRM vCM).get? j = t.get? j) := by
  have hmap : (morph_pvs vRA vRM vCM).map Prod.fst = morph_params := rfl
  have hnd : ((morph_pvs vRA vRM vCM).map Prod.fst).Nodup := by
    rw [hmap]
    decide
  have main := foldSubst_frame (morph_pvs vRA vRM vCM) t hnd H1 H2 H3 j
  refine ⟨main.1, main.2, ?_⟩
  intro pv hpv hnone l hget hcont
  apply main.1
  intro qv hqv w hw hfq
  obtain ⟨l2, hget2, hcont2⟩ :=
    findIdxSub_some (dirChars qv.1) t j hfq
  have hll : l = l2 := by
    rw [hget] at hget2
    injection hget2
  have hne : qv.1 ≠ pv.1 := by
    intro he
    have : qv = pv :=
      List.inj_on_of_nodup_map hnd hqv hpv he
    rw [this, hnone] at hw
    cases hw
  have hcont2b : containsSub l (dirChars qv.1) = true := by
    rw [hll]
    exact hcont2
  exact H2 l (List.get?_mem hget) qv hqv pv hpv hne ⟨hcont2b, hcont⟩

/-- C6 (witness): the amended theorem applied to a concrete three-line
morphology text with RA overridden to 9. -/
theorem morph_morph_file_frame_witness :
    (∀ l ∈ tC6, ∀ pv ∈ morph_pvs (some "9".toList) none none,
      containsSub l (dirChars pv.1) = true →
      findSub (dirChars pv.1) l = some 0) ∧
    (∀ l ∈ tC6, ∀ pv ∈ morph_pvs (some "9".toList) none none,
      ∀ qv ∈ morph_pvs (some "9".toList) none none, pv.1 ≠ qv.1 →
      ¬(containsSub l (dirChars pv.1) = true ∧
        containsSub l (dirChars qv.1) = true)) ∧
    (∀ pv ∈ morph_pvs (some "9".toList) none none, ∀ v, pv.2 = some v →
      ∀ qv ∈ morph_pvs (some "9".toList) none none, pv.1 ≠ qv.1 →
      containsSub (dirChars pv.1 ++ v) (dirChars qv.1) = false) ∧
    findIdxSub (dirChars "RA".toList) tC6 = some 0 ∧
    (morph_morph_file tC6 (some "9".toList) none none).get? 0
      = some (dirChars "RA".toList ++ "9".toList) :=
  ⟨by decide, by decide, by decide, by decide,
   (morph_morph_file_frame tC6 (some "9".toList) none none 0
      (by decide) (by decide) (by decide)).2.1
     ("RA".toList, some "9".toList) (by decide) "9".toList rfl (by decide)⟩
